import Mathlib

/- Verification of the dense-matrix value library (src/structs/dense/matrix.rs,
   src/helpers/traits.rs, src/helpers/memory.rs, src/helpers/errors.rs).

   Shallow embedding conventions:
   - the raw storage block `NonNull<T>` of `rows * cols` elements becomes a
     `List T` in row-major order;
   - the element type, generic over the `Numerical` trait in the source
     (addition, subtraction, multiplication, `zero`, `ident`), is a `Ring`;
   - unchecked pointer reads/writes (`get_data_mut_unchecked`) become
     `nth` (a `getD` read) and `List.set`;
   - functions that `assert!` (abort) are modelled with `Option`: `none` is
     the abort;
   - `MatOpResult<T>` (a newtype over `Result<Matrix<T>, Error>`) is
     `Except Error (Matrix T)`. -/

namespace RustMatrix

/-- Embeds `Error` from src/helpers/errors.rs: the sole error kind,
`InvalidDimensions`, carries two shape pairs. -/
inductive Error where
  | InvalidDimensions : Nat × Nat → Nat × Nat → Error
deriving DecidableEq

/-- Embeds `Matrix<T>` from src/structs/dense/matrix.rs: shape, row-major
storage, the cosmetic `scale` and `shift` accumulators, and the two flags. -/
structure Matrix (T : Type) where
  rows : Nat
  cols : Nat
  data : List T
  scale : T
  shift : T
  transposed : Bool
  pointwise : Bool
deriving DecidableEq

/-- Embeds `MatOpResult<T>`: `Result<Matrix<T>, Error>`. -/
abbrev MatOpResult (T : Type) : Type := Except Error (Matrix T)

variable {T : Type} [Ring T]

/-- Reading a storage slot through a raw pointer (`get_data_mut_unchecked`). -/
def nth (l : List T) (i : Nat) : T := l.getD i 0

/-- The storage invariant of `Matrix<T>`: the block holds `rows * cols` slots. -/
def Matrix.WF (m : Matrix T) : Prop := m.data.length = m.rows * m.cols

/-- Embeds `copymemory` from src/helpers/memory.rs: copy the slots of `src`
at offsets `[lo, hi)` to `dst` starting at offset `offset`. -/
def copymemory (src dst : List T) (lo hi offset : Nat) : List T :=
  (List.range (hi - lo)).foldl (fun d k => d.set (offset + k) (nth src (lo + k))) dst

/-- Embeds `MatOperations::new`: allocate `rows * cols` zeroed slots
(`alloc_zeroed` + `mem::zeroed` writes), `scale = ident`, `shift = zero`,
both flags `false`. (The `rows * cols > 0` allocation assert concerns only
zero-size construction, which no claim exercises.) -/
def Matrix.new (rows cols : Nat) : Matrix T :=
  { rows := rows
    cols := cols
    data := List.replicate (rows * cols) 0
    scale := 1
    shift := 0
    transposed := false
    pointwise := false }

/-- Embeds `Index for Matrix<T>` (and `IndexMut`'s identical read path):
`assert!(i < rows)`, `assert!(j < cols)`, then read slot `i * cols + j`.
`none` models the assertion failure (abort). -/
def Matrix.index? (m : Matrix T) (i j : Nat) : Option T :=
  if i < m.rows ∧ j < m.cols then some (nth m.data (i * m.cols + j)) else none

/-- The unchecked row-major slot read `data[i * cols + j]`, as the kernels
perform it via `get_data_mut_unchecked`. -/
def Matrix.entry (m : Matrix T) (i j : Nat) : T := nth m.data (i * m.cols + j)

/-- Embeds the `AsIndex` trait of src/helpers/traits.rs: the seven range
shapes that can select rows or columns. -/
inductive AsIndex where
  | single : Nat → AsIndex
  | range : Nat → Nat → AsIndex
  | rangeFull : AsIndex
  | rangeInclusive : Nat → Nat → AsIndex
  | rangeFrom : Nat → AsIndex
  | rangeTo : Nat → AsIndex
  | rangeToInclusive : Nat → AsIndex
deriving DecidableEq

/-- The `start` method of each `AsIndex` impl. -/
def AsIndex.start : AsIndex → Option Nat
  | .single i => some i
  | .range a _ => some a
  | .rangeFull => none
  | .rangeInclusive a _ => some a
  | .rangeFrom a => some a
  | .rangeTo _ => none
  | .rangeToInclusive _ => none

/-- The `end` method of each `AsIndex` impl (`end` is reserved in Lean). -/
def AsIndex.stop : AsIndex → Option Nat
  | .single i => some (i + 1)
  | .range _ b => some b
  | .rangeFull => none
  | .rangeInclusive _ b => some (b + 1)
  | .rangeFrom _ => none
  | .rangeTo b => some b
  | .rangeToInclusive b => some (b + 1)

/-- Embeds `Matrix::get_bounds`: resolve absent endpoints to `0` / the
extent, then `assert!` the four bound conditions; `none` models the abort. -/
def Matrix.get_bounds (m : Matrix T) (rows cols : AsIndex) :
    Option ((Nat × Nat) × (Nat × Nat)) :=
  let row_start := rows.start.getD 0
  let row_end := rows.stop.getD m.rows
  let col_start := cols.start.getD 0
  let col_end := cols.stop.getD m.cols
  if row_end ≤ m.rows ∧ col_end ≤ m.cols ∧ row_start < row_end ∧ col_start < col_end
  then some ((row_start, row_end), (col_start, col_end))
  else none

/-- Embeds `MatOperations::get`: resolve the selectors, allocate the
sub-matrix, and copy each selected row slice with one `copymemory` call. -/
def Matrix.get (m : Matrix T) (rows cols : AsIndex) : Option (Matrix T) :=
  match m.get_bounds rows cols with
  | none => none
  | some ((row_start, row_end), (col_start, col_end)) =>
    let result : Matrix T := Matrix.new (row_end - row_start) (col_end - col_start)
    some { result with
            data := (List.range' row_start (row_end - row_start)).foldl
              (fun d i => copymemory m.data d (i * m.cols + col_start) (i * m.cols + col_end)
                ((i - row_start) * result.cols)) result.data }

/-- Embeds `MatOperations::p`: set the `pointwise` flag. -/
def Matrix.p (m : Matrix T) : Matrix T := { m with pointwise := true }

/-- One `mem::swap` of the slots at offsets `p` and `q`. -/
def swapIdx (l : List T) (p q : Nat) : List T :=
  (l.set p (nth l q)).set q (nth l p)

/-- The physical permutation of `MatOperations::t`: for `i in 0..rows-1`,
`j in i+1..cols`, swap slots `i*cols + j` and `j*cols + i`. -/
def transposeData (rows cols : Nat) (d : List T) : List T :=
  (List.range (rows - 1)).foldl (fun d i =>
    (List.range' (i + 1) (cols - (i + 1))).foldl (fun d j =>
      swapIdx d (i * cols + j) (j * cols + i)) d) d

/-- Embeds `MatOperations::t`: toggle `transposed`, permute the storage,
then swap `rows` and `cols`. -/
def Matrix.t (m : Matrix T) : Matrix T :=
  { m with
      transposed := !m.transposed
      data := transposeData m.rows m.cols m.data
      rows := m.cols
      cols := m.rows }

/-- Embeds `matmul`: dimension check with the `((0, lhs.cols), (rhs.rows, 0))`
payload, then the naive triple loop accumulating with `+=` into the
zero-initialized result. -/
def matmul (lhs rhs : Matrix T) : MatOpResult T :=
  if lhs.cols ≠ rhs.rows then
    Except.error (Error.InvalidDimensions (0, lhs.cols) (rhs.rows, 0))
  else
    let result : Matrix T := Matrix.new lhs.rows rhs.cols
    Except.ok { result with
      data := (List.range lhs.rows).foldl (fun d i =>
        (List.range rhs.cols).foldl (fun d j =>
          (List.range lhs.cols).foldl (fun d k =>
            d.set (i * result.cols + j)
              (nth d (i * result.cols + j) +
                nth lhs.data (i * lhs.cols + k) * nth rhs.data (k * rhs.cols + j))) d) d)
        result.data }

/-- Embeds `pointwisemul`: shape check with the full-shapes payload, then a
single loop writing `lhs[i] * rhs[i]`. -/
def pointwisemul (lhs rhs : Matrix T) : MatOpResult T :=
  if lhs.rows ≠ rhs.rows ∨ lhs.cols ≠ rhs.cols then
    Except.error (Error.InvalidDimensions (lhs.rows, lhs.cols) (rhs.rows, rhs.cols))
  else
    let result : Matrix T := Matrix.new lhs.rows lhs.cols
    Except.ok { result with
      data := (List.range (lhs.rows * lhs.cols)).foldl
        (fun d i => d.set i (nth lhs.data i * nth rhs.data i)) result.data }

/-- Embeds `matadd`. -/
def matadd (lhs rhs : Matrix T) : MatOpResult T :=
  if lhs.rows ≠ rhs.rows ∨ lhs.cols ≠ rhs.cols then
    Except.error (Error.InvalidDimensions (lhs.rows, lhs.cols) (rhs.rows, rhs.cols))
  else
    let result : Matrix T := Matrix.new lhs.rows lhs.cols
    Except.ok { result with
      data := (List.range (lhs.rows * lhs.cols)).foldl
        (fun d i => d.set i (nth lhs.data i + nth rhs.data i)) result.data }

/-- Embeds `matsub`. -/
def matsub (lhs rhs : Matrix T) : MatOpResult T :=
  if lhs.rows ≠ rhs.rows ∨ lhs.cols ≠ rhs.cols then
    Except.error (Error.InvalidDimensions (lhs.rows, lhs.cols) (rhs.rows, rhs.cols))
  else
    let result : Matrix T := Matrix.new lhs.rows lhs.cols
    Except.ok { result with
      data := (List.range (lhs.rows * lhs.cols)).foldl
        (fun d i => d.set i (nth lhs.data i - nth rhs.data i)) result.data }

/-- Embeds `Mul<Matrix<T>> for Matrix<T>`: dispatch on the `pointwise` flags. -/
def mulMM (a b : Matrix T) : MatOpResult T :=
  if a.pointwise || b.pointwise then pointwisemul a b else matmul a b

/-- Embeds `Mul<MatOpResult<T>> for Matrix<T>`: an `Err` right operand is
returned unchanged. -/
def mulMR (a : Matrix T) (r : MatOpResult T) : MatOpResult T :=
  match r with
  | Except.error e => Except.error e
  | Except.ok b => if a.pointwise || b.pointwise then pointwisemul a b else matmul a b

/-- Embeds `Mul<Matrix<T>> for MatOpResult<T>`. -/
def mulRM (r : MatOpResult T) (b : Matrix T) : MatOpResult T :=
  match r with
  | Except.error e => Except.error e
  | Except.ok a => if a.pointwise || b.pointwise then pointwisemul a b else matmul a b

/-- Embeds `Mul<MatOpResult<T>> for MatOpResult<T>`: the left error wins. -/
def mulRR (r s : MatOpResult T) : MatOpResult T :=
  match r with
  | Except.error e => Except.error e
  | Except.ok a =>
    match s with
    | Except.error e => Except.error e
    | Except.ok b => if a.pointwise || b.pointwise then pointwisemul a b else matmul a b

/-- Embeds `Add<Matrix<T>> for Matrix<T>`. -/
def addMM (a b : Matrix T) : MatOpResult T := matadd a b

/-- Embeds `Add<MatOpResult<T>> for Matrix<T>`. -/
def addMR (a : Matrix T) (r : MatOpResult T) : MatOpResult T :=
  match r with
  | Except.error e => Except.error e
  | Except.ok b => matadd a b

/-- Embeds `Add<Matrix<T>> for MatOpResult<T>`. -/
def addRM (r : MatOpResult T) (b : Matrix T) : MatOpResult T :=
  match r with
  | Except.error e => Except.error e
  | Except.ok a => matadd a b

/-- Embeds `Add<MatOpResult<T>> for MatOpResult<T>`. -/
def addRR (r s : MatOpResult T) : MatOpResult T :=
  match r with
  | Except.error e => Except.error e
  | Except.ok a =>
    match s with
    | Except.error e => Except.error e
    | Except.ok b => matadd a b

/-- Embeds `Sub<Matrix<T>> for Matrix<T>`. -/
def subMM (a b : Matrix T) : MatOpResult T := matsub a b

/-- Embeds `Sub<MatOpResult<T>> for Matrix<T>`. -/
def subMR (a : Matrix T) (r : MatOpResult T) : MatOpResult T :=
  match r with
  | Except.error e => Except.error e
  | Except.ok b => matsub a b

/-- Embeds `Sub<Matrix<T>> for MatOpResult<T>`. -/
def subRM (r : MatOpResult T) (b : Matrix T) : MatOpResult T :=
  match r with
  | Except.error e => Except.error e
  | Except.ok a => matsub a b

/-- Embeds `Sub<MatOpResult<T>> for MatOpResult<T>`. -/
def subRR (r s : MatOpResult T) : MatOpResult T :=
  match r with
  | Except.error e => Except.error e
  | Except.ok a =>
    match s with
    | Except.error e => Except.error e
    | Except.ok b => matsub a b

/- ---------- basic facts about slots and the constructor ---------- -/

@[simp] theorem new_rows (r c : Nat) : (Matrix.new (T := T) r c).rows = r := rfl

@[simp] theorem new_cols (r c : Nat) : (Matrix.new (T := T) r c).cols = c := rfl

@[simp] theorem new_data (r c : Nat) :
    (Matrix.new (T := T) r c).data = List.replicate (r * c) 0 := rfl

@[simp] theorem new_scale (r c : Nat) : (Matrix.new (T := T) r c).scale = 1 := rfl

@[simp] theorem new_shift (r c : Nat) : (Matrix.new (T := T) r c).shift = 0 := rfl

@[simp] theorem new_transposed (r c : Nat) : (Matrix.new (T := T) r c).transposed = false := rfl

@[simp] theorem new_pointwise (r c : Nat) : (Matrix.new (T := T) r c).pointwise = false := rfl

theorem nth_eq_getElem (l : List T) (k : Nat) (h : k < l.length) : nth l k = l[k] := by
  simp [nth, List.getD_eq_getElem?_getD, List.getElem?_eq_getElem h]

@[simp] theorem nth_replicate (n k : Nat) : nth (List.replicate n (0 : T)) k = 0 := by
  unfold nth
  rw [List.getD_eq_getElem?_getD, List.getElem?_replicate]
  rcases Nat.lt_or_ge k n with h | h
  · rw [if_pos h]; rfl
  · rw [if_neg (by omega)]; rfl

theorem nth_set_self (l : List T) (i : Nat) (v : T) (h : i < l.length) :
    nth (l.set i v) i = v := by
  simp [nth, List.getD_eq_getElem?_getD, List.getElem?_set, h]

theorem nth_set_ne (l : List T) (i j : Nat) (v : T) (h : i ≠ j) :
    nth (l.set i v) j = nth l j := by
  simp [nth, List.getD_eq_getElem?_getD, List.getElem?_set, h]

theorem foldl_length_inv {α : Type} (step : List α → Nat → List α)
    (h : ∀ d i, (step d i).length = d.length) :
    ∀ (l : List Nat) (d : List α), (l.foldl step d).length = d.length := by
  intro l
  induction l with
  | nil => intro d; rfl
  | cons a l ih => intro d; rw [List.foldl_cons, ih, h]

/-- Row-major index bound: the slot of a valid position lies inside the block. -/
theorem idx_lt_of_lt {i R j C : Nat} (hi : i < R) (hj : j < C) : i * C + j < R * C :=
  calc i * C + j < i * C + C := by omega
    _ = (i + 1) * C := (Nat.succ_mul i C).symm
    _ ≤ R * C := Nat.mul_le_mul_right C hi

/-- Row-major positions decode uniquely. -/
theorem rowmajor_inj {n x y a b : Nat} (hy : y < n) (hb : b < n)
    (h : x * n + y = a * n + b) : x = a ∧ y = b := by
  have hxa : x = a := by
    by_contra hne
    rcases Nat.lt_or_ge x a with hlt | hge
    · have : x * n + y < a * n + b :=
        Nat.lt_of_lt_of_le (idx_lt_of_lt hlt hy) (Nat.le_add_right _ _)
      omega
    · have hlt : a < x := by omega
      have : a * n + b < x * n + y :=
        Nat.lt_of_lt_of_le (idx_lt_of_lt hlt hb) (Nat.le_add_right _ _)
      omega
  subst hxa
  exact ⟨rfl, Nat.add_left_cancel h⟩

/- ---------- characterizations of the write loops ---------- -/

/-- The single write loop `for i in 0..n { result[i] = f(i) }` used by the
element-wise kernels: slot `m` reads `f m` below `n` and is untouched above. -/
theorem nth_foldl_write (f : Nat → T) (n : Nat) :
    ∀ (d : List T), n ≤ d.length → ∀ m,
      nth ((List.range n).foldl (fun d k => d.set k (f k)) d) m
        = if m < n then f m else nth d m := by
  induction n with
  | zero => intro d h m; simp
  | succ n ih =>
    intro d h m
    have hlen : ((List.range n).foldl (fun d k => d.set k (f k)) d).length = d.length :=
      foldl_length_inv _ (fun _ _ => List.length_set ..) _ d
    rw [List.range_succ, List.foldl_append, List.foldl_cons, List.foldl_nil]
    by_cases hm : m = n
    · subst hm
      rw [nth_set_self _ _ _ (by omega), if_pos (by omega)]
    · rw [nth_set_ne _ _ _ _ (Ne.symm hm), ih d (by omega) m]
      by_cases hc : m < n
      · rw [if_pos hc, if_pos (by omega)]
      · rw [if_neg hc, if_neg (by omega)]

/-- The offset write loop performed by one `copymemory` call. -/
theorem nth_foldl_set_off (f : Nat → T) (off n : Nat) :
    ∀ (d : List T), off + n ≤ d.length → ∀ m,
      nth ((List.range n).foldl (fun d k => d.set (off + k) (f k)) d) m
        = if off ≤ m ∧ m < off + n then f (m - off) else nth d m := by
  induction n with
  | zero =>
    intro d h m
    rw [List.range_zero, List.foldl_nil, if_neg (by omega)]
  | succ n ih =>
    intro d h m
    have hlen : ((List.range n).foldl (fun d k => d.set (off + k) (f k)) d).length = d.length :=
      foldl_length_inv _ (fun _ _ => List.length_set ..) _ d
    rw [List.range_succ, List.foldl_append, List.foldl_cons, List.foldl_nil]
    by_cases hm : m = off + n
    · subst hm
      rw [nth_set_self _ _ _ (by omega), if_pos (by omega)]
      congr 1
      omega
    · rw [nth_set_ne _ _ _ _ (fun hh => hm hh.symm), ih d (by omega) m]
      by_cases hc : off ≤ m ∧ m < off + n
      · rw [if_pos hc, if_pos (by omega)]
      · rw [if_neg hc, if_neg (by omega)]

/-- Reading `copymemory src dst lo hi offset`. -/
theorem nth_copymemory (src : List T) (lo hi off : Nat) (d : List T)
    (h : off + (hi - lo) ≤ d.length) (m : Nat) :
    nth (copymemory src d lo hi off) m
      = if off ≤ m ∧ m < off + (hi - lo) then nth src (lo + (m - off)) else nth d m := by
  unfold copymemory
  rw [nth_foldl_set_off (fun k => nth src (lo + k)) off (hi - lo) d h m]

theorem length_copymemory (src : List T) (lo hi off : Nat) (d : List T) :
    (copymemory src d lo hi off).length = d.length :=
  foldl_length_inv _ (fun _ _ => List.length_set ..) _ d

/-- The accumulation loop `for k in 0..n { d[idx] += g k }` of matmul's
innermost dimension. -/
theorem nth_foldl_acc (g : Nat → T) (idx n : Nat) :
    ∀ (d : List T), idx < d.length → ∀ m,
      nth ((List.range n).foldl (fun d k => d.set idx (nth d idx + g k)) d) m
        = if m = idx then nth d idx + ∑ k ∈ Finset.range n, g k else nth d m := by
  induction n with
  | zero =>
    intro d h m
    by_cases hm : m = idx
    · subst hm; simp
    · simp [hm]
  | succ n ih =>
    intro d h m
    have hlen : ((List.range n).foldl (fun d k => d.set idx (nth d idx + g k)) d).length
        = d.length := foldl_length_inv _ (fun _ _ => List.length_set ..) _ d
    rw [List.range_succ, List.foldl_append, List.foldl_cons, List.foldl_nil]
    by_cases hm : m = idx
    · subst hm
      rw [nth_set_self _ _ _ (by omega), ih d h m, if_pos rfl, if_pos rfl,
        Finset.sum_range_succ, add_assoc]
    · rw [nth_set_ne _ _ _ _ (fun hh => hm hh.symm), ih d h m, if_neg hm, if_neg hm]

/-- The middle matmul loop over columns `j`: it accumulates into the row
block `[b, b + n)` (where `b` is the row's base offset) and touches nothing
else. -/
theorem nth_foldl_jloop (g : Nat → Nat → T) (b L : Nat) :
    ∀ (n : Nat) (d : List T), b + n ≤ d.length → ∀ m,
      nth ((List.range n).foldl (fun d j =>
          (List.range L).foldl (fun d k => d.set (b + j) (nth d (b + j) + g j k)) d) d) m
        = if b ≤ m ∧ m < b + n then nth d m + ∑ k ∈ Finset.range L, g (m - b) k
          else nth d m := by
  intro n
  induction n with
  | zero =>
    intro d h m
    rw [List.range_zero, List.foldl_nil, if_neg (by omega)]
  | succ n ih =>
    intro d h m
    have hlen : ((List.range n).foldl (fun d j =>
        (List.range L).foldl (fun d k => d.set (b + j) (nth d (b + j) + g j k)) d) d).length
        = d.length :=
      foldl_length_inv _ (fun d j => foldl_length_inv _ (fun _ _ => List.length_set ..) _ d) _ d
    simp only [List.range_succ, List.foldl_append, List.foldl_cons, List.foldl_nil]
    rw [nth_foldl_acc (g n) (b + n) L _ (by omega) m]
    by_cases hm : m = b + n
    · subst hm
      rw [if_pos rfl, ih d (by omega) (b + n), if_neg (by omega), if_pos (by omega),
        Nat.add_sub_cancel_left]
    · rw [if_neg hm, ih d (by omega) m]
      by_cases hc : b ≤ m ∧ m < b + n
      · rw [if_pos hc, if_pos (by omega)]
      · rw [if_neg hc, if_neg (by omega)]

/-- The outer two matmul loops: row `i` accumulates `∑ k < L, g i j k` into
slot `i * C + j`, and the slots at offsets `R * C` and above are untouched. -/
theorem nth_foldl_iloop (g : Nat → Nat → Nat → T) (C L : Nat) :
    ∀ (R : Nat) (d : List T), R * C ≤ d.length →
      (∀ i j, i < R → j < C →
        nth ((List.range R).foldl (fun d i =>
            (List.range C).foldl (fun d j =>
              (List.range L).foldl (fun d k =>
                d.set (i * C + j) (nth d (i * C + j) + g i j k)) d) d) d) (i * C + j)
          = nth d (i * C + j) + ∑ k ∈ Finset.range L, g i j k) ∧
      (∀ m, R * C ≤ m →
        nth ((List.range R).foldl (fun d i =>
            (List.range C).foldl (fun d j =>
              (List.range L).foldl (fun d k =>
                d.set (i * C + j) (nth d (i * C + j) + g i j k)) d) d) d) m = nth d m) := by
  intro R
  induction R with
  | zero =>
    intro d _
    constructor
    · intro i j hi _
      exact absurd hi (Nat.not_lt_zero i)
    · intro m _
      rw [List.range_zero, List.foldl_nil]
  | succ R ih =>
    intro d h
    have hRC : R * C + C = (R + 1) * C := (Nat.succ_mul R C).symm
    have hR : R * C ≤ d.length := le_trans (by omega) h
    obtain ⟨iha, ihb⟩ := ih d hR
    have hlen : ((List.range R).foldl (fun d i =>
        (List.range C).foldl (fun d j =>
          (List.range L).foldl (fun d k =>
            d.set (i * C + j) (nth d (i * C + j) + g i j k)) d) d) d).length = d.length :=
      foldl_length_inv _ (fun d i => foldl_length_inv _
        (fun d j => foldl_length_inv _ (fun _ _ => List.length_set ..) _ d) _ d) _ d
    constructor
    · intro i j hi hj
      simp only [List.range_succ, List.foldl_append, List.foldl_cons, List.foldl_nil]
      rw [nth_foldl_jloop (g R) (R * C) L C _ (by omega) (i * C + j)]
      rcases Nat.lt_or_ge i R with hiR | hiR
      · rw [if_neg (fun hcon => absurd hcon.1 (Nat.not_le.mpr (idx_lt_of_lt hiR hj)))]
        exact iha i j hiR hj
      · have hie : i = R := by omega
        subst hie
        rw [if_pos ⟨Nat.le_add_right _ _, by omega⟩, Nat.add_sub_cancel_left,
          ihb (i * C + j) (Nat.le_add_right _ _)]
    · intro m hm
      simp only [List.range_succ, List.foldl_append, List.foldl_cons, List.foldl_nil]
      rw [nth_foldl_jloop (g R) (R * C) L C _ (by omega) m]
      rw [if_neg (by omega), ihb m (by omega)]

/- ---------- kernel-level specifications ---------- -/

theorem matadd_err (lhs rhs : Matrix T) (h : lhs.rows ≠ rhs.rows ∨ lhs.cols ≠ rhs.cols) :
    matadd lhs rhs
      = Except.error (Error.InvalidDimensions (lhs.rows, lhs.cols) (rhs.rows, rhs.cols)) := by
  unfold matadd
  rw [if_pos h]

theorem matsub_err (lhs rhs : Matrix T) (h : lhs.rows ≠ rhs.rows ∨ lhs.cols ≠ rhs.cols) :
    matsub lhs rhs
      = Except.error (Error.InvalidDimensions (lhs.rows, lhs.cols) (rhs.rows, rhs.cols)) := by
  unfold matsub
  rw [if_pos h]

theorem pointwisemul_err (lhs rhs : Matrix T) (h : lhs.rows ≠ rhs.rows ∨ lhs.cols ≠ rhs.cols) :
    pointwisemul lhs rhs
      = Except.error (Error.InvalidDimensions (lhs.rows, lhs.cols) (rhs.rows, rhs.cols)) := by
  unfold pointwisemul
  rw [if_pos h]

theorem matmul_err (lhs rhs : Matrix T) (h : lhs.cols ≠ rhs.rows) :
    matmul lhs rhs = Except.error (Error.InvalidDimensions (0, lhs.cols) (rhs.rows, 0)) := by
  unfold matmul
  rw [if_pos h]

theorem matadd_ok (lhs rhs : Matrix T) (hr : lhs.rows = rhs.rows) (hc : lhs.cols = rhs.cols) :
    ∃ res, matadd lhs rhs = Except.ok res ∧ res.rows = lhs.rows ∧ res.cols = lhs.cols ∧
      res.scale = 1 ∧ res.shift = 0 ∧ res.transposed = false ∧ res.pointwise = false ∧
      ∀ i j, i < lhs.rows → j < lhs.cols →
        res.index? i j = some (lhs.entry i j + rhs.entry i j) := by
  unfold matadd
  rw [if_neg (by omega)]
  refine ⟨_, rfl, rfl, rfl, rfl, rfl, rfl, rfl, ?_⟩
  intro i j hi hj
  dsimp only [Matrix.index?, Matrix.entry, Matrix.new]
  rw [if_pos ⟨hi, hj⟩,
    nth_foldl_write (fun k => nth lhs.data k + nth rhs.data k) (lhs.rows * lhs.cols) _
      (by rw [List.length_replicate]) (i * lhs.cols + j),
    if_pos (idx_lt_of_lt hi hj), ← hc]

theorem matsub_ok (lhs rhs : Matrix T) (hr : lhs.rows = rhs.rows) (hc : lhs.cols = rhs.cols) :
    ∃ res, matsub lhs rhs = Except.ok res ∧ res.rows = lhs.rows ∧ res.cols = lhs.cols ∧
      res.scale = 1 ∧ res.shift = 0 ∧ res.transposed = false ∧ res.pointwise = false ∧
      ∀ i j, i < lhs.rows → j < lhs.cols →
        res.index? i j = some (lhs.entry i j - rhs.entry i j) := by
  unfold matsub
  rw [if_neg (by omega)]
  refine ⟨_, rfl, rfl, rfl, rfl, rfl, rfl, rfl, ?_⟩
  intro i j hi hj
  dsimp only [Matrix.index?, Matrix.entry, Matrix.new]
  rw [if_pos ⟨hi, hj⟩,
    nth_foldl_write (fun k => nth lhs.data k - nth rhs.data k) (lhs.rows * lhs.cols) _
      (by rw [List.length_replicate]) (i * lhs.cols + j),
    if_pos (idx_lt_of_lt hi hj), ← hc]

theorem pointwisemul_ok (lhs rhs : Matrix T) (hr : lhs.rows = rhs.rows) (hc : lhs.cols = rhs.cols) :
    ∃ res, pointwisemul lhs rhs = Except.ok res ∧ res.rows = lhs.rows ∧ res.cols = lhs.cols ∧
      res.scale = 1 ∧ res.shift = 0 ∧ res.transposed = false ∧ res.pointwise = false ∧
      ∀ i j, i < lhs.rows → j < lhs.cols →
        res.index? i j = some (lhs.entry i j * rhs.entry i j) := by
  unfold pointwisemul
  rw [if_neg (by omega)]
  refine ⟨_, rfl, rfl, rfl, rfl, rfl, rfl, rfl, ?_⟩
  intro i j hi hj
  dsimp only [Matrix.index?, Matrix.entry, Matrix.new]
  rw [if_pos ⟨hi, hj⟩,
    nth_foldl_write (fun k => nth lhs.data k * nth rhs.data k) (lhs.rows * lhs.cols) _
      (by rw [List.length_replicate]) (i * lhs.cols + j),
    if_pos (idx_lt_of_lt hi hj), ← hc]

theorem matmul_ok (lhs rhs : Matrix T) (h : lhs.cols = rhs.rows) :
    ∃ res, matmul lhs rhs = Except.ok res ∧ res.rows = lhs.rows ∧ res.cols = rhs.cols ∧
      res.scale = 1 ∧ res.shift = 0 ∧ res.transposed = false ∧ res.pointwise = false ∧
      ∀ i j, i < lhs.rows → j < rhs.cols →
        res.index? i j = some (∑ k ∈ Finset.range lhs.cols, lhs.entry i k * rhs.entry k j) := by
  unfold matmul
  rw [if_neg (by omega)]
  refine ⟨_, rfl, rfl, rfl, rfl, rfl, rfl, rfl, ?_⟩
  intro i j hi hj
  dsimp only [Matrix.index?, Matrix.entry, Matrix.new]
  rw [if_pos ⟨hi, hj⟩,
    (nth_foldl_iloop
      (fun i j k => nth lhs.data (i * lhs.cols + k) * nth rhs.data (k * rhs.cols + j))
      rhs.cols lhs.cols lhs.rows (List.replicate (lhs.rows * rhs.cols) 0)
      (by rw [List.length_replicate])).1 i j hi hj,
    nth_replicate, zero_add]

/- ---------- the sub-range copy loop of get ---------- -/

/-- The row loop of `get`: row `r0 + x` of the source lands as row `x` of the
destination, one `copymemory` per row; destination slots at `R * (c1 - c0)`
and above are untouched. -/
theorem nth_get_rows (src : List T) (cols r0 c0 c1 : Nat) :
    ∀ (R : Nat) (d : List T), R * (c1 - c0) ≤ d.length →
      (∀ x j, x < R → j < c1 - c0 →
        nth ((List.range' r0 R).foldl
            (fun d i => copymemory src d (i * cols + c0) (i * cols + c1)
              ((i - r0) * (c1 - c0))) d) (x * (c1 - c0) + j)
          = nth src ((r0 + x) * cols + c0 + j)) ∧
      (∀ m, R * (c1 - c0) ≤ m →
        nth ((List.range' r0 R).foldl
            (fun d i => copymemory src d (i * cols + c0) (i * cols + c1)
              ((i - r0) * (c1 - c0))) d) m = nth d m) := by
  intro R
  induction R with
  | zero =>
    intro d _
    constructor
    · intro x j hx _
      exact absurd hx (Nat.not_lt_zero x)
    · intro m _
      rfl
  | succ R ih =>
    intro d h
    have hw : R * (c1 - c0) + (c1 - c0) = (R + 1) * (c1 - c0) := (Nat.succ_mul R (c1 - c0)).symm
    have hR : R * (c1 - c0) ≤ d.length := le_trans (by omega) h
    obtain ⟨iha, ihb⟩ := ih d hR
    have hlen : ((List.range' r0 R).foldl
        (fun d i => copymemory src d (i * cols + c0) (i * cols + c1)
          ((i - r0) * (c1 - c0))) d).length = d.length :=
      foldl_length_inv _ (fun d i => length_copymemory ..) _ d
    have hcnt : (r0 + R) * cols + c1 - ((r0 + R) * cols + c0) = c1 - c0 :=
      Nat.add_sub_add_left _ _ _
    have hoff : r0 + R - r0 = R := Nat.add_sub_cancel_left r0 R
    constructor
    · intro x j hx hj
      rw [List.range'_concat, List.foldl_append, List.foldl_cons, List.foldl_nil]
      simp only [one_mul, hoff]
      rw [nth_copymemory src ((r0 + R) * cols + c0) ((r0 + R) * cols + c1)
        (R * (c1 - c0)) _ (by rw [hlen, hcnt]; omega) (x * (c1 - c0) + j), hcnt]
      rcases Nat.lt_or_ge x R with hxR | hxR
      · rw [if_neg (fun hcon => absurd hcon.1 (Nat.not_le.mpr (idx_lt_of_lt hxR hj)))]
        exact iha x j hxR hj
      · have hxe : x = R := by omega
        subst hxe
        rw [if_pos ⟨Nat.le_add_right _ _, by omega⟩, Nat.add_sub_cancel_left]
    · intro m hm
      rw [List.range'_concat, List.foldl_append, List.foldl_cons, List.foldl_nil]
      simp only [one_mul, hoff]
      rw [nth_copymemory src ((r0 + R) * cols + c0) ((r0 + R) * cols + c1)
        (R * (c1 - c0)) _ (by rw [hlen, hcnt]; omega) m, hcnt]
      rw [if_neg (by omega), ihb m (by omega)]

/- ---------- the transpose swap loop ---------- -/

theorem length_swapIdx (l : List T) (p q : Nat) : (swapIdx l p q).length = l.length := by
  unfold swapIdx
  rw [List.length_set, List.length_set]

theorem nth_swapIdx (l : List T) (p q m : Nat) (hp : p < l.length) (hq : q < l.length)
    (hpq : p ≠ q) :
    nth (swapIdx l p q) m = if m = p then nth l q else if m = q then nth l p else nth l m := by
  unfold swapIdx
  by_cases hmq : m = q
  · subst hmq
    rw [nth_set_self _ _ _ (by rw [List.length_set]; exact hq),
      if_neg (fun hh => hpq hh.symm), if_pos rfl]
  · rw [nth_set_ne _ q m _ (fun hh => hmq hh.symm)]
    by_cases hmp : m = p
    · subst hmp
      rw [nth_set_self _ _ _ hp, if_pos rfl]
    · rw [nth_set_ne _ p m _ (fun hh => hmp hh.symm), if_neg hmp, if_neg hmq]

theorem length_transposeData (rows cols : Nat) (d : List T) :
    (transposeData rows cols d).length = d.length :=
  foldl_length_inv _ (fun d _ => foldl_length_inv _ (fun _ _ => length_swapIdx ..) _ d) _ d

/-- A single-row matrix: the outer swap loop is empty. -/
theorem transposeData_row1 (cols : Nat) (d : List T) : transposeData 1 cols d = d := rfl

theorem foldl_const {α : Type} : ∀ (l : List Nat) (d : List α),
    l.foldl (fun d _ => d) d = d := by
  intro l
  induction l with
  | nil => intro d; rfl
  | cons a l ih => intro d; rw [List.foldl_cons]; exact ih d

/-- A single-column matrix: every inner swap loop `i+1..1` is empty. -/
theorem transposeData_col1 (rows : Nat) (d : List T) : transposeData rows 1 d = d := by
  unfold transposeData
  simp only [show ∀ i : Nat, 1 - (i + 1) = 0 from fun i => by omega, List.range'_zero,
    List.foldl_nil]
  exact foldl_const _ d

/-- Row `i` of the swap loop of `t()` on an `n × n` block: after `c` inner
steps the pairs `(i, j)`/`(j, i)` for `i < j < i + 1 + c` are exchanged and
everything else is untouched. -/
theorem nth_transpose_inner (n i : Nat) (hi : i < n) :
    ∀ (c : Nat), i + 1 + c ≤ n → ∀ (d : List T), d.length = n * n → ∀ x y, x < n → y < n →
      nth ((List.map (fun t => i + 1 + t) (List.range c)).foldl
          (fun d j => swapIdx d (i * n + j) (j * n + i)) d) (x * n + y)
        = if (x = i ∧ i < y ∧ y < i + 1 + c) ∨ (y = i ∧ i < x ∧ x < i + 1 + c)
          then nth d (y * n + x) else nth d (x * n + y) := by
  intro c
  induction c with
  | zero =>
    intro _ d _ x y _ _
    rw [List.range_zero, List.map_nil, List.foldl_nil, if_neg (by omega)]
  | succ c ih =>
    intro hc d hd x y hx hy
    simp only [List.range_succ, List.map_append, List.map_cons, List.map_nil,
      List.foldl_append, List.foldl_cons, List.foldl_nil]
    set j := i + 1 + c with hjdef
    have hj : j < n := by omega
    have hlen : ((List.map (fun t => i + 1 + t) (List.range c)).foldl
        (fun d j => swapIdx d (i * n + j) (j * n + i)) d).length = d.length :=
      foldl_length_inv _ (fun d j => length_swapIdx ..) _ d
    rw [nth_swapIdx _ (i * n + j) (j * n + i) (x * n + y)
      (by rw [hlen, hd]; exact idx_lt_of_lt hi hj)
      (by rw [hlen, hd]; exact idx_lt_of_lt hj hi)
      (fun heq => by obtain ⟨h1, h2⟩ := rowmajor_inj hj hi heq; omega)]
    by_cases hxp : x * n + y = i * n + j
    · obtain ⟨hx1, hy1⟩ := rowmajor_inj hy hj hxp
      rw [if_pos hxp, ih (by omega) d hd j i hj hi, if_neg (by omega), hx1, hy1,
        if_pos (Or.inl ⟨rfl, by omega, by omega⟩)]
    · by_cases hxq : x * n + y = j * n + i
      · obtain ⟨hx1, hy1⟩ := rowmajor_inj hi hy hxq.symm
        rw [if_neg hxp, if_pos hxq, ih (by omega) d hd i j hi hj, if_neg (by omega),
          ← hx1, ← hy1, if_pos (Or.inr ⟨hy1.symm ▸ rfl, by omega, by omega⟩)]
      · rw [if_neg hxp, if_neg hxq, ih (by omega) d hd x y hx hy]
        by_cases hcond : (x = i ∧ i < y ∧ y < i + 1 + c) ∨ (y = i ∧ i < x ∧ x < i + 1 + c)
        · rw [if_pos hcond, if_pos (by
            rcases hcond with ⟨h1, h2, h3⟩ | ⟨h1, h2, h3⟩
            · exact Or.inl ⟨h1, h2, by omega⟩
            · exact Or.inr ⟨h1, h2, by omega⟩)]
        · rw [if_neg hcond, if_neg (by
            intro hcon
            apply hcond
            rcases hcon with ⟨h1, h2, h3⟩ | ⟨h1, h2, h3⟩
            · have hyn : y ≠ j := fun hh => hxp (by rw [h1, hh])
              exact Or.inl ⟨h1, h2, by omega⟩
            · have hxn : x ≠ j := fun hh => hxq (by rw [h1, hh])
              exact Or.inr ⟨h1, h2, by omega⟩)]

/-- After the first `R` rows of the swap loop on an `n × n` block, exactly
the off-diagonal pairs meeting a processed row are exchanged. -/
theorem nth_transpose_outer (n : Nat) (d : List T) (hd : d.length = n * n) :
    ∀ (R : Nat), R + 1 ≤ n → ∀ x y, x < n → y < n →
      nth ((List.range R).foldl (fun d i =>
          (List.range' (i + 1) (n - (i + 1))).foldl (fun d j =>
            swapIdx d (i * n + j) (j * n + i)) d) d) (x * n + y)
        = if x ≠ y ∧ (x < R ∨ y < R) then nth d (y * n + x) else nth d (x * n + y) := by
  intro R
  induction R with
  | zero =>
    intro _ x y _ _
    rw [List.range_zero, List.foldl_nil, if_neg (by omega)]
  | succ R ih =>
    intro hR x y hx hy
    simp only [List.range_succ, List.foldl_append, List.foldl_cons, List.foldl_nil]
    have hlen : ((List.range R).foldl (fun d i =>
        (List.range' (i + 1) (n - (i + 1))).foldl (fun d j =>
          swapIdx d (i * n + j) (j * n + i)) d) d).length = n * n := by
      rw [foldl_length_inv _ (fun d i => foldl_length_inv _
        (fun d j => length_swapIdx ..) _ d) _ d, hd]
    rw [List.range'_eq_map_range,
      nth_transpose_inner n R (by omega) (n - (R + 1)) (by omega) _ hlen x y hx hy]
    have hfull : R + 1 + (n - (R + 1)) = n := by omega
    rw [hfull]
    by_cases hcase : (x = R ∧ R < y ∧ y < n) ∨ (y = R ∧ R < x ∧ x < n)
    · have hxy : nth ((List.range R).foldl (fun d i =>
          (List.range' (i + 1) (n - (i + 1))).foldl (fun d j =>
            swapIdx d (i * n + j) (j * n + i)) d) d) (y * n + x)
          = if y ≠ x ∧ (y < R ∨ x < R) then nth d (x * n + y) else nth d (y * n + x) :=
        ih (by omega) y x hy hx
      rw [if_pos hcase, hxy, if_neg (by omega), if_pos (by omega)]
    · rw [if_neg hcase, ih (by omega) x y hx hy]
      by_cases hcnd : x ≠ y ∧ (x < R ∨ y < R)
      · rw [if_pos hcnd, if_pos (by omega)]
      · rw [if_neg hcnd, if_neg (by omega)]

/-- The physical swap pattern of `t()` is the true transpose on any square
block. -/
theorem nth_transposeData_sq (n : Nat) (d : List T) (hd : d.length = n * n) (x y : Nat)
    (hx : x < n) (hy : y < n) :
    nth (transposeData n n d) (x * n + y) = nth d (y * n + x) := by
  unfold transposeData
  rw [nth_transpose_outer n d hd (n - 1) (by omega) x y hx hy]
  by_cases hxy : x = y
  · rw [if_neg (by omega), hxy]
  · rw [if_pos ⟨hxy, by omega⟩]

/- ---------- flag bookkeeping of p ---------- -/

omit [Ring T] in
@[simp] theorem p_rows (m : Matrix T) : (m.p).rows = m.rows := rfl

omit [Ring T] in
@[simp] theorem p_cols (m : Matrix T) : (m.p).cols = m.cols := rfl

omit [Ring T] in
@[simp] theorem p_data (m : Matrix T) : (m.p).data = m.data := rfl

omit [Ring T] in
@[simp] theorem p_pointwise (m : Matrix T) : (m.p).pointwise = true := rfl

/- ---------- the claims ---------- -/

/-- C1: the matrix-multiply kernel is defined exactly when `lhs.cols =
rhs.rows`; on success it returns `Ok` of a `(lhs.rows, rhs.cols)` matrix
whose entry `(i, j)` is `∑ k < lhs.cols, lhs[i,k] * rhs[k,j]`, and on
failure it returns `Err(InvalidDimensions((0, lhs.cols), (rhs.rows, 0)))`. -/
theorem claim_matmul_kernel (lhs rhs : Matrix T) :
    (lhs.cols ≠ rhs.rows →
      matmul lhs rhs = Except.error (Error.InvalidDimensions (0, lhs.cols) (rhs.rows, 0))) ∧
    (lhs.cols = rhs.rows →
      ∃ res, matmul lhs rhs = Except.ok res ∧ res.rows = lhs.rows ∧ res.cols = rhs.cols ∧
        ∀ i j, i < lhs.rows → j < rhs.cols →
          res.index? i j
            = some (∑ k ∈ Finset.range lhs.cols, lhs.entry i k * rhs.entry k j)) := by
  refine ⟨matmul_err lhs rhs, fun h => ?_⟩
  obtain ⟨res, h1, h2, h3, _, _, _, _, h8⟩ := matmul_ok lhs rhs h
  exact ⟨res, h1, h2, h3, h8⟩

theorem claim_matmul_kernel_witness :
    ∃ res, matmul (Matrix.mk 2 3 [(1 : Int), 2, 3, 4, 5, 6] 1 0 false false)
        (Matrix.mk 3 2 [(7 : Int), 8, 9, 10, 11, 12] 1 0 false false) = Except.ok res ∧
      res.rows = 2 ∧ res.cols = 2 ∧
      ∀ i j, i < 2 → j < 2 →
        res.index? i j = some (∑ k ∈ Finset.range 3,
          (Matrix.mk 2 3 [(1 : Int), 2, 3, 4, 5, 6] 1 0 false false).entry i k *
            (Matrix.mk 3 2 [(7 : Int), 8, 9, 10, 11, 12] 1 0 false false).entry k j) :=
  (claim_matmul_kernel _ _).2 rfl

/-- C2: `×` dispatches on the `pointwise` flags — element-wise iff either
flag is set, matrix-multiply otherwise — so `A.p() × B` is the Hadamard
product for equal shapes and `Err` for unequal shapes, regardless of the
matmul dimension condition. -/
theorem claim_pointwise_dispatch (a b : Matrix T) :
    ((a.pointwise || b.pointwise) = true → mulMM a b = pointwisemul a b) ∧
    ((a.pointwise || b.pointwise) = false → mulMM a b = matmul a b) ∧
    (mulMM (a.p) b = pointwisemul (a.p) b) ∧
    (a.rows = b.rows → a.cols = b.cols →
      ∃ res, mulMM (a.p) b = Except.ok res ∧ res.rows = a.rows ∧ res.cols = a.cols ∧
        ∀ i j, i < a.rows → j < a.cols →
          res.index? i j = some (a.entry i j * b.entry i j)) ∧
    (¬(a.rows = b.rows ∧ a.cols = b.cols) →
      mulMM (a.p) b
        = Except.error (Error.InvalidDimensions (a.rows, a.cols) (b.rows, b.cols))) := by
  refine ⟨?_, ?_, ?_, ?_, ?_⟩
  · intro h
    unfold mulMM
    rw [if_pos h]
  · intro h
    unfold mulMM
    rw [if_neg (by rw [h]; exact Bool.false_ne_true)]
  · unfold mulMM
    rw [if_pos (by rw [p_pointwise, Bool.true_or])]
  · intro h1 h2
    have hd : mulMM (a.p) b = pointwisemul (a.p) b := by
      unfold mulMM
      rw [if_pos (by rw [p_pointwise, Bool.true_or])]
    obtain ⟨res, k1, k2, k3, _, _, _, _, k8⟩ := pointwisemul_ok (a.p) b h1 h2
    exact ⟨res, hd.trans k1, k2, k3, k8⟩
  · intro h
    have hd : mulMM (a.p) b = pointwisemul (a.p) b := by
      unfold mulMM
      rw [if_pos (by rw [p_pointwise, Bool.true_or])]
    rw [hd]
    exact pointwisemul_err (a.p) b (by simp only [p_rows, p_cols]; omega)

theorem claim_pointwise_dispatch_witness :
    mulMM ((Matrix.mk 2 2 [(1 : Int), 2, 3, 4] 1 0 false false).p)
        (Matrix.mk 2 2 [(5 : Int), 6, 7, 8] 1 0 false false)
      = pointwisemul ((Matrix.mk 2 2 [(1 : Int), 2, 3, 4] 1 0 false false).p)
        (Matrix.mk 2 2 [(5 : Int), 6, 7, 8] 1 0 false false) ∧
    ∃ res, mulMM ((Matrix.mk 2 2 [(1 : Int), 2, 3, 4] 1 0 false false).p)
        (Matrix.mk 2 2 [(5 : Int), 6, 7, 8] 1 0 false false) = Except.ok res ∧
      res.rows = 2 ∧ res.cols = 2 ∧
      ∀ i j, i < 2 → j < 2 →
        res.index? i j = some ((Matrix.mk 2 2 [(1 : Int), 2, 3, 4] 1 0 false false).entry i j *
          (Matrix.mk 2 2 [(5 : Int), 6, 7, 8] 1 0 false false).entry i j) :=
  ⟨(claim_pointwise_dispatch _ _).2.2.1, (claim_pointwise_dispatch _ _).2.2.2.1 rfl rfl⟩

/-- C3: for `+`, `−`, `×` over every operand combination that can carry an
`Err`, an `Err` operand is propagated unchanged, and with two `Err`
operands the left one wins. -/
theorem claim_error_absorption (e : Error) (a : Matrix T) (r : MatOpResult T) :
    mulMR a (Except.error e) = Except.error e ∧
    mulRM (Except.error e) a = Except.error e ∧
    mulRR (Except.error e) r = Except.error e ∧
    mulRR (Except.ok a) (Except.error e) = Except.error e ∧
    addMR a (Except.error e) = Except.error e ∧
    addRM (Except.error e) a = Except.error e ∧
    addRR (Except.error e) r = Except.error e ∧
    addRR (Except.ok a) (Except.error e) = Except.error e ∧
    subMR a (Except.error e) = Except.error e ∧
    subRM (Except.error e) a = Except.error e ∧
    subRR (Except.error e) r = Except.error e ∧
    subRR (Except.ok a) (Except.error e) = Except.error e :=
  ⟨rfl, rfl, rfl, rfl, rfl, rfl, rfl, rfl, rfl, rfl, rfl, rfl⟩

/-- C4: `+` and `−` succeed exactly on equal shapes, the result entry
`(i, j)` is the sum (resp. difference) of the operand entries, and a shape
mismatch yields `Err(InvalidDimensions((lhs.rows, lhs.cols), (rhs.rows,
rhs.cols)))`. -/
theorem claim_add_sub_kernel (lhs rhs : Matrix T) :
    (lhs.rows = rhs.rows → lhs.cols = rhs.cols →
      (∃ res, addMM lhs rhs = Except.ok res ∧ res.rows = lhs.rows ∧ res.cols = lhs.cols ∧
        ∀ i j, i < lhs.rows → j < lhs.cols →
          res.index? i j = some (lhs.entry i j + rhs.entry i j)) ∧
      (∃ res, subMM lhs rhs = Except.ok res ∧ res.rows = lhs.rows ∧ res.cols = lhs.cols ∧
        ∀ i j, i < lhs.rows → j < lhs.cols →
          res.index? i j = some (lhs.entry i j - rhs.entry i j))) ∧
    (¬(lhs.rows = rhs.rows ∧ lhs.cols = rhs.cols) →
      addMM lhs rhs
        = Except.error (Error.InvalidDimensions (lhs.rows, lhs.cols) (rhs.rows, rhs.cols)) ∧
      subMM lhs rhs
        = Except.error (Error.InvalidDimensions (lhs.rows, lhs.cols) (rhs.rows, rhs.cols))) := by
  constructor
  · intro h1 h2
    constructor
    · obtain ⟨res, k1, k2, k3, _, _, _, _, k8⟩ := matadd_ok lhs rhs h1 h2
      exact ⟨res, k1, k2, k3, k8⟩
    · obtain ⟨res, k1, k2, k3, _, _, _, _, k8⟩ := matsub_ok lhs rhs h1 h2
      exact ⟨res, k1, k2, k3, k8⟩
  · intro h
    exact ⟨matadd_err lhs rhs (by omega), matsub_err lhs rhs (by omega)⟩

theorem claim_add_sub_kernel_witness :
    ((∃ res, addMM (Matrix.mk 2 2 [(1 : Int), 2, 3, 4] 1 0 false false)
        (Matrix.mk 2 2 [(5 : Int), 6, 7, 8] 1 0 false false) = Except.ok res ∧
      res.rows = 2 ∧ res.cols = 2 ∧
      ∀ i j, i < 2 → j < 2 →
        res.index? i j = some ((Matrix.mk 2 2 [(1 : Int), 2, 3, 4] 1 0 false false).entry i j +
          (Matrix.mk 2 2 [(5 : Int), 6, 7, 8] 1 0 false false).entry i j)) ∧
    (∃ res, subMM (Matrix.mk 2 2 [(1 : Int), 2, 3, 4] 1 0 false false)
        (Matrix.mk 2 2 [(5 : Int), 6, 7, 8] 1 0 false false) = Except.ok res ∧
      res.rows = 2 ∧ res.cols = 2 ∧
      ∀ i j, i < 2 → j < 2 →
        res.index? i j = some ((Matrix.mk 2 2 [(1 : Int), 2, 3, 4] 1 0 false false).entry i j -
          (Matrix.mk 2 2 [(5 : Int), 6, 7, 8] 1 0 false false).entry i j))) ∧
    addMM (Matrix.mk 2 3 [(1 : Int), 2, 3, 4, 5, 6] 1 0 false false)
        (Matrix.mk 2 2 [(5 : Int), 6, 7, 8] 1 0 false false)
      = Except.error (Error.InvalidDimensions (2, 3) (2, 2)) :=
  ⟨(claim_add_sub_kernel _ _).1 rfl rfl,
    ((claim_add_sub_kernel _ _).2 (by decide)).1⟩

/-- C5: `get` resolves each selector per the seven-shape mapping table
(single `i` → `(i, i+1)`; `[a,b)` → `(a, b)`; `[a,b]` → `(a, b+1)`; absent
start → 0; absent end → the extent) and, for valid resolved bounds, returns
a fresh `(r1 − r0) × (c1 − c0)` matrix with `result[(i,j)] = M[(r0+i, c0+j)]`. -/
theorem claim_get_subrange (m : Matrix T) (rsel csel : AsIndex) :
    ((∀ a, (AsIndex.single a).start = some a ∧ (AsIndex.single a).stop = some (a + 1)) ∧
      (∀ a b, (AsIndex.range a b).start = some a ∧ (AsIndex.range a b).stop = some b) ∧
      (∀ a b, (AsIndex.rangeInclusive a b).start = some a ∧
        (AsIndex.rangeInclusive a b).stop = some (b + 1)) ∧
      (∀ a, (AsIndex.rangeFrom a).start = some a ∧ (AsIndex.rangeFrom a).stop = none) ∧
      (∀ b, (AsIndex.rangeTo b).start = none ∧ (AsIndex.rangeTo b).stop = some b) ∧
      (∀ b, (AsIndex.rangeToInclusive b).start = none ∧
        (AsIndex.rangeToInclusive b).stop = some (b + 1)) ∧
      (AsIndex.rangeFull.start = none ∧ AsIndex.rangeFull.stop = none)) ∧
    (rsel.start.getD 0 < rsel.stop.getD m.rows → rsel.stop.getD m.rows ≤ m.rows →
      csel.start.getD 0 < csel.stop.getD m.cols → csel.stop.getD m.cols ≤ m.cols →
      ∃ res, m.get rsel csel = some res ∧
        res.rows = rsel.stop.getD m.rows - rsel.start.getD 0 ∧
        res.cols = csel.stop.getD m.cols - csel.start.getD 0 ∧
        ∀ i j, i < rsel.stop.getD m.rows - rsel.start.getD 0 →
          j < csel.stop.getD m.cols - csel.start.getD 0 →
          res.index? i j
            = some (m.entry (rsel.start.getD 0 + i) (csel.start.getD 0 + j))) := by
  refine ⟨⟨fun a => ⟨rfl, rfl⟩, fun a b => ⟨rfl, rfl⟩, fun a b => ⟨rfl, rfl⟩,
    fun a => ⟨rfl, rfl⟩, fun b => ⟨rfl, rfl⟩, fun b => ⟨rfl, rfl⟩, rfl, rfl⟩, ?_⟩
  intro h1 h2 h3 h4
  have hgb : m.get_bounds rsel csel
      = some ((rsel.start.getD 0, rsel.stop.getD m.rows),
          (csel.start.getD 0, csel.stop.getD m.cols)) := by
    simp only [Matrix.get_bounds]
    rw [if_pos ⟨h2, h4, h1, h3⟩]
  simp only [Matrix.get, hgb]
  refine ⟨_, rfl, rfl, rfl, ?_⟩
  intro i j hi hj
  dsimp only [Matrix.index?, Matrix.new]
  rw [if_pos ⟨hi, hj⟩,
    (nth_get_rows m.data m.cols (rsel.start.getD 0) (csel.start.getD 0)
      (csel.stop.getD m.cols)
      (rsel.stop.getD m.rows - rsel.start.getD 0) _
      (by rw [List.length_replicate])).1 i j hi hj,
    Matrix.entry, Nat.add_assoc]

theorem claim_get_subrange_witness :
    ∃ res, (Matrix.mk 3 3 [(1 : Int), 2, 3, 4, 5, 6, 7, 8, 9] 1 0 false false).get
        (AsIndex.rangeFrom 1) (AsIndex.rangeTo 2) = some res ∧
      res.rows = 2 ∧ res.cols = 2 ∧
      ∀ i j, i < 2 → j < 2 →
        res.index? i j
          = some ((Matrix.mk 3 3 [(1 : Int), 2, 3, 4, 5, 6, 7, 8, 9] 1 0 false false).entry
              (1 + i) (0 + j)) :=
  (claim_get_subrange _ _ _).2 (by decide) (by decide) (by decide) (by decide)

/-- C6: on a square matrix `t` satisfies `t(A)[(i,j)] = A[(j,i)]` and is an
involution: `t(t(A)) = A`, flags and shape included. -/
theorem claim_square_transpose (m : Matrix T) (hwf : m.WF) (hsq : m.rows = m.cols) :
    (∀ i j, i < m.cols → j < m.rows → (m.t).index? i j = m.index? j i) ∧
    m.t.t = m := by
  obtain ⟨rows, cols, data, scale, shift, transposed, pointwise⟩ := m
  simp only [Matrix.WF] at hwf
  simp only at hsq
  subst hsq
  constructor
  · intro i j hi hj
    simp only at hi hj
    dsimp only [Matrix.t, Matrix.index?]
    rw [if_pos ⟨hi, hj⟩, if_pos ⟨hj, hi⟩,
      nth_transposeData_sq rows data hwf i j hi hj]
  · dsimp only [Matrix.t]
    simp only [Matrix.mk.injEq, Bool.not_not, and_true, true_and]
    refine List.ext_getElem ?_ ?_
    · rw [length_transposeData, length_transposeData]
    · intro k hk1 hk2
      have hn0 : 0 < rows := by
        rcases Nat.eq_zero_or_pos rows with h0 | h0
        · rw [h0] at hwf
          simp only [Nat.mul_zero] at hwf
          omega
        · exact h0
      have hy : k % rows < rows := Nat.mod_lt _ hn0
      have hx : k / rows < rows := by
        rw [Nat.div_lt_iff_lt_mul hn0]
        omega
      have hk : k / rows * rows + k % rows = k := by
        rw [Nat.mul_comm]
        exact Nat.div_add_mod k rows
      rw [← nth_eq_getElem _ k hk1, ← nth_eq_getElem data k hk2, ← hk,
        nth_transposeData_sq rows _ (by rw [length_transposeData, hwf]) _ _ hx hy,
        nth_transposeData_sq rows data hwf _ _ hy hx]

theorem claim_square_transpose_witness :
    (∀ i j, i < 2 → j < 2 →
      ((Matrix.mk 2 2 [(1 : Int), 2, 3, 4] 1 0 false false).t).index? i j
        = (Matrix.mk 2 2 [(1 : Int), 2, 3, 4] 1 0 false false).index? j i) ∧
    (Matrix.mk 2 2 [(1 : Int), 2, 3, 4] 1 0 false false).t.t
      = Matrix.mk 2 2 [(1 : Int), 2, 3, 4] 1 0 false false :=
  claim_square_transpose (Matrix.mk 2 2 [(1 : Int), 2, 3, 4] 1 0 false false)
    (by unfold Matrix.WF; decide) rfl

/-- C7: every slot of `new(rows, cols)` reads as the additive identity, and
both flags start `false`. -/
theorem claim_new_zero_init (rows cols i : Nat) (_hi : i < rows * cols) :
    nth (Matrix.new (T := T) rows cols).data i = 0 ∧
    (Matrix.new (T := T) rows cols).transposed = false ∧
    (Matrix.new (T := T) rows cols).pointwise = false :=
  ⟨by rw [new_data, nth_replicate], rfl, rfl⟩

theorem claim_new_zero_init_witness :
    nth (Matrix.new (T := Int) 2 3).data 5 = 0 ∧
    (Matrix.new (T := Int) 2 3).transposed = false ∧
    (Matrix.new (T := Int) 2 3).pointwise = false :=
  claim_new_zero_init 2 3 5 (by decide)

theorem get_none_iff_bounds_none (m : Matrix T) (rsel csel : AsIndex) :
    m.get rsel csel = none ↔ m.get_bounds rsel csel = none := by
  unfold Matrix.get
  cases m.get_bounds rsel csel with
  | none => simp
  | some x =>
    obtain ⟨⟨r0, r1⟩, c0, c1⟩ := x
    simp

/-- C8: the subscript aborts exactly on `i ≥ rows ∨ j ≥ cols`, and `get`
aborts exactly when a resolved selector violates `0 ≤ start < end ≤ extent`;
under the in-range preconditions the abort branches are unreachable. -/
theorem claim_abort_conditions (m : Matrix T) (i j : Nat) (rsel csel : AsIndex) :
    (m.index? i j = none ↔ i ≥ m.rows ∨ j ≥ m.cols) ∧
    (m.get rsel csel = none ↔
      rsel.start.getD 0 ≥ rsel.stop.getD m.rows ∨ rsel.stop.getD m.rows > m.rows ∨
      csel.start.getD 0 ≥ csel.stop.getD m.cols ∨ csel.stop.getD m.cols > m.cols) := by
  constructor
  · unfold Matrix.index?
    by_cases h : i < m.rows ∧ j < m.cols
    · rw [if_pos h]
      constructor
      · intro hc
        exact absurd hc (Option.some_ne_none _)
      · intro hc
        exact absurd h (by omega)
    · rw [if_neg h]
      exact ⟨fun _ => by omega, fun _ => rfl⟩
  · rw [get_none_iff_bounds_none]
    simp only [Matrix.get_bounds]
    by_cases h : rsel.stop.getD m.rows ≤ m.rows ∧ csel.stop.getD m.cols ≤ m.cols ∧
        rsel.start.getD 0 < rsel.stop.getD m.rows ∧ csel.start.getD 0 < csel.stop.getD m.cols
    · rw [if_pos h]
      constructor
      · intro hc
        exact absurd hc (Option.some_ne_none _)
      · intro hc
        exact absurd h (by omega)
    · rw [if_neg h]
      exact ⟨fun _ => by omega, fun _ => rfl⟩

/-- C9: on a single-row or single-column matrix the swap loop of `t()` does
nothing to the storage, so `t` is a correct full transpose there: the shape
becomes `(cols, rows)`, the data block is untouched, and
`t(M)[(j,i)] = M[(i,j)]`. -/
theorem claim_vector_transpose (m : Matrix T) (h : m.rows = 1 ∨ m.cols = 1) :
    m.t.rows = m.cols ∧ m.t.cols = m.rows ∧ m.t.data = m.data ∧
    ∀ i j, i < m.rows → j < m.cols → m.t.index? j i = m.index? i j := by
  have hdata : m.t.data = m.data := by
    show transposeData m.rows m.cols m.data = m.data
    rcases h with h | h
    · rw [h, transposeData_row1]
    · rw [h, transposeData_col1]
  refine ⟨rfl, rfl, hdata, ?_⟩
  intro i j hi hj
  show Matrix.index? _ j i = _
  unfold Matrix.index?
  rw [if_pos (⟨hj, hi⟩ : j < m.t.rows ∧ i < m.t.cols), if_pos ⟨hi, hj⟩]
  show some (nth m.t.data (j * m.rows + i)) = some (nth m.data (i * m.cols + j))
  rw [hdata]
  rcases h with h | h
  · have hi0 : i = 0 := by omega
    subst hi0
    rw [h]
    simp
  · have hj0 : j = 0 := by omega
    subst hj0
    rw [h]
    simp

theorem claim_vector_transpose_witness :
    (Matrix.mk 1 4 [(1 : Int), 2, 3, 4] 1 0 false false).t.rows = 4 ∧
    (Matrix.mk 1 4 [(1 : Int), 2, 3, 4] 1 0 false false).t.cols = 1 ∧
    (Matrix.mk 1 4 [(1 : Int), 2, 3, 4] 1 0 false false).t.data = [(1 : Int), 2, 3, 4] ∧
    ∀ i j, i < 1 → j < 4 →
      (Matrix.mk 1 4 [(1 : Int), 2, 3, 4] 1 0 false false).t.index? j i
        = (Matrix.mk 1 4 [(1 : Int), 2, 3, 4] 1 0 false false).index? i j :=
  claim_vector_transpose _ (Or.inl rfl)

/-- C10: every successful kernel run yields a freshly constructed matrix:
flags `false`, `scale = 1`, `shift = 0`, independent of the operand flags. -/
theorem claim_result_fresh (a b res : Matrix T)
    (hok : matmul a b = Except.ok res ∨ pointwisemul a b = Except.ok res ∨
      matadd a b = Except.ok res ∨ matsub a b = Except.ok res) :
    res.transposed = false ∧ res.pointwise = false ∧ res.scale = 1 ∧ res.shift = 0 := by
  rcases hok with hk | hk | hk | hk
  · unfold matmul at hk
    by_cases hc : a.cols ≠ b.rows
    · rw [if_pos hc] at hk
      exact Except.noConfusion hk
    · rw [if_neg hc] at hk
      injection hk with hk
      rw [← hk]
      exact ⟨rfl, rfl, rfl, rfl⟩
  · unfold pointwisemul at hk
    by_cases hc : a.rows ≠ b.rows ∨ a.cols ≠ b.cols
    · rw [if_pos hc] at hk
      exact Except.noConfusion hk
    · rw [if_neg hc] at hk
      injection hk with hk
      rw [← hk]
      exact ⟨rfl, rfl, rfl, rfl⟩
  · unfold matadd at hk
    by_cases hc : a.rows ≠ b.rows ∨ a.cols ≠ b.cols
    · rw [if_pos hc] at hk
      exact Except.noConfusion hk
    · rw [if_neg hc] at hk
      injection hk with hk
      rw [← hk]
      exact ⟨rfl, rfl, rfl, rfl⟩
  · unfold matsub at hk
    by_cases hc : a.rows ≠ b.rows ∨ a.cols ≠ b.cols
    · rw [if_pos hc] at hk
      exact Except.noConfusion hk
    · rw [if_neg hc] at hk
      injection hk with hk
      rw [← hk]
      exact ⟨rfl, rfl, rfl, rfl⟩

theorem claim_result_fresh_witness :
    (Matrix.mk 1 1 [(8 : Int)] 1 0 false false).transposed = false ∧
    (Matrix.mk 1 1 [(8 : Int)] 1 0 false false).pointwise = false ∧
    (Matrix.mk 1 1 [(8 : Int)] 1 0 false false).scale = 1 ∧
    (Matrix.mk 1 1 [(8 : Int)] 1 0 false false).shift = 0 :=
  claim_result_fresh (Matrix.mk 1 1 [(3 : Int)] 2 0 true true)
    (Matrix.mk 1 1 [(5 : Int)] 1 0 false true)
    (Matrix.mk 1 1 [(8 : Int)] 1 0 false false)
    (Or.inr (Or.inr (Or.inl (by rfl))))

end RustMatrix
